import Mathlib

/-!
Shallow embedding of `src/WebCrawler/main.py` (a one-shot web-page fetcher):
URL normalization and resource filtering, HTTP fetch with retry/backoff,
page persistence to numbered files, index accumulation and final flush,
and the orchestrating `main` loop, together with theorems settling the
spec claims about them.

Python strings are modelled as Lean `String`s, the filesystem as an explicit
association-list structure, the network as an oracle function, and machine
side effects (sleeps) as an explicit trace.
-/

namespace WebCrawler

/-! ### Configuration constants (module-level constants in the source) -/

def URLS_FILE : String := "urls.json"

def OUTPUT_DIR : String := "crawled_pages"

def INDEX_PATH : String := "index.txt"

def MAX_PAGES : Nat := 100

/-- Python constant `REQUEST_DELAY_SEC = 0.2`, in seconds as a rational. -/
def REQUEST_DELAY_SEC : ℚ := 1/5

def TIMEOUT_SEC : Nat := 15

def RETRIES : Nat := 3

/-- The set `DISALLOWED_EXTENSIONS`: the fixed set of rejected file extensions
(a Python `set`; membership order is irrelevant, modelled as a list). -/
def DISALLOWED_EXTENSIONS : List String :=
  [".js", ".css", ".png", ".jpg", ".jpeg", ".gif", ".svg", ".webp",
   ".ico", ".pdf", ".zip", ".rar", ".7z", ".mp3", ".mp4", ".avi", ".mov",
   ".woff", ".woff2", ".ttf", ".eot"]

/-! ### Character-level string primitives

Python's `str.lower`, `str.strip` and the `in` operator are modelled at the
level of character lists (`String.data`), so that every definition in this
file evaluates by kernel reduction. -/

/-- Python `s.lower()`: lower-case every character. -/
def str_lower (s : String) : String :=
  String.mk (s.data.map Char.toLower)

/-- Python `s.strip()`: drop leading and trailing whitespace. -/
def str_trim (s : String) : String :=
  String.mk (((s.data.dropWhile Char.isWhitespace).reverse.dropWhile
    Char.isWhitespace).reverse)

/-- Python `needle in hay` on character lists: some suffix of `hay` starts with
`needle`. -/
def contains_chars (needle : List Char) : List Char → Bool
  | [] => needle.isEmpty
  | c :: rest => needle.isPrefixOf (c :: rest) || contains_chars needle rest

/-- Python `needle in hay` for strings: substring containment. -/
def contains_str (hay needle : String) : Bool :=
  contains_chars needle.data hay.data

/-! ### Resource filter (`is_bad_resource_url`) -/

/-- Python `s.split(mark)[0]` for a single-character separator: the prefix of the
character list before the first occurrence of `mark`. -/
def strip_after (mark : Char) (cs : List Char) : List Char :=
  cs.takeWhile (fun c => c != mark)

/-- Model of `is_bad_resource_url(url)`: lower-case the URL, drop everything from the
first `?` and then from the first `#`, and test whether the remainder ends
with one of `DISALLOWED_EXTENSIONS`. -/
def is_bad_resource_url (url : String) : Bool :=
  let u := strip_after '#' (strip_after '?' (str_lower url).data)
  DISALLOWED_EXTENSIONS.any (fun ext => ext.data.isSuffixOf u)

/-! ### URL normalization (`normalize_urls`) -/

/-- An element of the JSON `urls` array: either a string or some non-string
JSON value (which `normalize_urls` silently drops). -/
inductive JsonEntry where
  | str (s : String)
  | other
deriving DecidableEq, Repr

/-- The loop body of `normalize_urls`, with the `seen` set made explicit
(membership in a Python `set` is modelled as list membership). -/
def normalize_go (seen : List String) : List JsonEntry → List String
  | [] => []
  | e :: rest =>
    match e with
    | .other => normalize_go seen rest
    | .str s =>
      let u := str_trim s
      if u = "" then normalize_go seen rest
      else if is_bad_resource_url u then normalize_go seen rest
      else if u ∈ seen then normalize_go seen rest
      else u :: normalize_go (u :: seen) rest

/-- Model of `normalize_urls(urls)`: drop non-strings, trim, drop empties, drop
resource URLs, deduplicate preserving first-occurrence order. -/
def normalize_urls (urls : List JsonEntry) : List String :=
  normalize_go [] urls

/-! ### URL loading (`load_urls`) -/

/-- The two fatal configuration failures of `load_urls`:
`json.loads` failing (or the document not being an object, so that
`data.get` raises), and the `urls` field not being a list
(the explicit `ValueError`). -/
inductive ConfigError where
  | parse_error
  | urls_not_list
deriving DecidableEq, Repr

/-- The value found at the `urls` key, when present. -/
inductive UrlsField where
  | list (entries : List JsonEntry)
  | not_list
deriving DecidableEq, Repr

/-- The parsed input document handed to `load_urls`: unparseable input,
or an object with an optional `urls` field. -/
inductive UrlsDoc where
  | malformed
  | obj (urls : Option UrlsField)
deriving DecidableEq, Repr

/-- Model of `load_urls`: reads the document; `data.get("urls", [])` defaults a
missing field to the empty list; a present non-list field raises
`ValueError`; otherwise the entries are passed to `normalize_urls`. -/
def load_urls (doc : UrlsDoc) : Except ConfigError (List String) :=
  match doc with
  | .malformed => .error .parse_error
  | .obj none => .ok (normalize_urls [])
  | .obj (some .not_list) => .error .urls_not_list
  | .obj (some (.list entries)) => .ok (normalize_urls entries)

/-! ### Fetching (`is_html_response`, `fetch_html`) -/

/-- Model of `is_html_response(resp)`: the `Content-Type` header (empty when absent),
lower-cased, must contain `text/html` or `application/xhtml+xml`. -/
def is_html_response (content_type : Option String) : Bool :=
  let ctype := str_lower (content_type.getD "")
  contains_str ctype "text/html" || contains_str ctype "application/xhtml+xml"

/-- The outcome of one `session.get` call: a raised transport exception,
or a response with a status code, optional `Content-Type` header, and
decoded body text. -/
inductive AttemptOutcome where
  | exn
  | resp (status : Nat) (content_type : Option String) (body : String)
deriving DecidableEq, Repr

/-- The observable behaviour of one `fetch_html` call: its return value,
how many `session.get` attempts it made, and the backoff sleeps
(in seconds) it performed, in order. -/
structure FetchTrace where
  result : Option String
  attempts : Nat
  sleeps : List ℚ
deriving DecidableEq, Repr

/-- The `for attempt in range(1, RETRIES + 1)` loop of `fetch_html`:
`net` gives the outcome of the `session.get` call of each attempt number;
`remaining` counts the attempts still allowed. A non-exception outcome
returns immediately (`None` on a non-200 status or a non-HTML content type,
the body otherwise); an exception sleeps `0.5 * attempt` seconds and
retries; falling off the loop returns `None`. -/
def fetch_go (net : Nat → AttemptOutcome) : Nat → Nat → FetchTrace
  | _, 0 => ⟨none, 0, []⟩
  | attempt, remaining + 1 =>
    match net attempt with
    | .resp status content_type body =>
      if status ≠ 200 then ⟨none, 1, []⟩
      else if !is_html_response content_type then ⟨none, 1, []⟩
      else ⟨some body, 1, []⟩
    | .exn =>
      let t := fetch_go net (attempt + 1) remaining
      ⟨t.result, t.attempts + 1, ((attempt : ℚ) / 2) :: t.sleeps⟩

/-- Model of `fetch_html(session, url)`, abstracted over the network oracle `net`
and the retry budget (`RETRIES` in the source). -/
def fetch_html (net : Nat → AttemptOutcome) (retries : Nat) : FetchTrace :=
  fetch_go net 1 retries

/-! ### Decimal rendering of sequence numbers (`f"{number}.txt"`) -/

/-- The character of a decimal digit. -/
def digit_char (d : Nat) : Char :=
  Char.ofNat (48 + d)

/-- Decimal digits of `n`, least significant first, with explicit fuel
(`fuel ≥ n` suffices). -/
def to_digits_rev (fuel n : Nat) : List Nat :=
  match fuel with
  | 0 => []
  | fuel + 1 => if n = 0 then [] else (n % 10) :: to_digits_rev fuel (n / 10)

/-- Decimal rendering of a natural number (the model of `f"{number}"`). -/
def nat_repr (n : Nat) : String :=
  if n = 0 then "0" else String.mk (((to_digits_rev n n).reverse).map digit_char)

/-- The output file name derived from a sequence number: `f"{number}.txt"`. -/
def page_file_name (number : Nat) : String :=
  nat_repr number ++ ".txt"

/-! ### Filesystem model and `save_page` -/

/-- A file path as constructed by the source: a directory joined with a
file name (`output_dir / f"{number}.txt"`). -/
structure FPath where
  dir : String
  name : String
deriving DecidableEq, Repr

/-- The filesystem state visible to the program: the set of existing
directories, the current files (an association list, most recent write
first), and the append-only log of every write performed (used to count
files written during a run). -/
structure FS where
  dirs : List String
  files : List (FPath × String)
  log : List (FPath × String)
deriving DecidableEq, Repr

/-- Python `Path.mkdir(parents=True, exist_ok=True)`: create the directory if
absent; never an error. -/
def mkdir_p (fs : FS) (d : String) : FS :=
  if d ∈ fs.dirs then fs else { fs with dirs := d :: fs.dirs }

/-- Python `path.write_text(...)`: fails if the containing directory does not
exist; otherwise overwrites the file and appends to the write log. -/
def fs_write (fs : FS) (p : FPath) (content : String) : Except Unit FS :=
  if p.dir ∈ fs.dirs then
    .ok { dirs := fs.dirs,
          files := (p, content) :: fs.files.filter (fun e => e.1 != p),
          log := fs.log ++ [(p, content)] }
  else .error ()

/-- Reading back a file: the most recent write to that path, if any. -/
def fs_lookup (fs : FS) (p : FPath) : Option String :=
  (fs.files.find? (fun e => e.1 == p)).map Prod.snd

/-- Model of `save_page(output_dir, number, html)`: ensure the directory exists,
write the body to `output_dir / f"{number}.txt"`, return the path. -/
def save_page (fs : FS) (output_dir : String) (number : Nat) (html : String) :
    Except Unit (FS × FPath) :=
  let fs1 := mkdir_p fs output_dir
  let p : FPath := ⟨output_dir, page_file_name number⟩
  match fs_write fs1 p html with
  | .ok fs2 => .ok (fs2, p)
  | .error e => .error e

/-- Function `save_page` as used by `main` (it never fails; see `save_page_eq`). -/
def save_page_run (fs : FS) (output_dir : String) (number : Nat) (html : String) :
    FS × FPath :=
  (save_page fs output_dir number html).toOption.getD
    (fs, ⟨output_dir, page_file_name number⟩)

/-! ### Index serialization (`write_index`) -/

/-- One index record: `f"{n}\t{url}"`. -/
def index_line (rec : Nat × String) : String :=
  nat_repr rec.1 ++ "\t" ++ rec.2

/-- Python `sep.join(parts)`. -/
def join_str (sep : String) : List String → String
  | [] => ""
  | [x] => x
  | x :: y :: rest => x ++ sep ++ join_str sep (y :: rest)

/-- The text written by `write_index`: the records joined by newlines,
with a final newline appended. -/
def write_index_text (index_lines : List (Nat × String)) : String :=
  join_str "\n" (index_lines.map index_line) ++ "\n"

/-! ### The orchestrator (`main`) -/

/-- The mutable state of the crawl loop. -/
structure LoopState where
  saved : Nat
  index_lines : List (Nat × String)
  fs : FS
deriving DecidableEq, Repr

/-- The `for url in urls` loop of `main`: `results i` is the value returned
by `fetch_html` for the `i`-th URL of the list (`none` models every failure
mode). On success the page is saved under the incremented counter and an
index record is appended; on failure the URL is skipped. The loop breaks
once `saved >= maxPages`. -/
def crawl_loop (results : Nat → Option String) (maxPages : Nat) :
    List String → Nat → LoopState → LoopState
  | [], _, st => st
  | url :: rest, i, st =>
    if st.saved ≥ maxPages then st
    else
      match results i with
      | none => crawl_loop results maxPages rest (i + 1) st
      | some html =>
        let saved' := st.saved + 1
        let r := save_page_run st.fs OUTPUT_DIR saved' html
        crawl_loop results maxPages rest (i + 1)
          { saved := saved',
            index_lines := st.index_lines ++ [(saved', url)],
            fs := r.1 }

/-- How the process terminates. `config_error` is an uncaught exception from
`load_urls`; `empty_list_error` is the `SystemExit` for an empty URL list;
`insufficient saved` is the final `SystemExit` whose message states the
number of pages saved; `done saved` is the zero-exit success summary.
All but `done` exit with a non-zero status and a diagnostic message. -/
inductive ExitStatus where
  | config_error
  | empty_list_error
  | insufficient (saved : Nat)
  | done (saved : Nat)
deriving DecidableEq, Repr

/-- Whether the exit status is a non-zero (abnormal) exit. -/
def ExitStatus.isFatal : ExitStatus → Bool
  | .done _ => false
  | _ => true

/-- Everything observable about one run of `main`: the exit status, the
final page filesystem, the content written to the index file (`none` when
the run aborted before the flush), and the final counter and index list. -/
structure RunOutcome where
  exit : ExitStatus
  fs : FS
  index_content : Option String
  saved : Nat
  index_lines : List (Nat × String)
deriving DecidableEq, Repr

/-- Model of `main()`: load and normalize the URLs (aborting on a configuration
error), abort if the list is empty, run the crawl loop, flush the index
unconditionally, then fail if fewer than `MAX_PAGES` pages were saved. -/
def main (doc : UrlsDoc) (results : Nat → Option String) (fs0 : FS) : RunOutcome :=
  match load_urls doc with
  | .error _ => ⟨.config_error, fs0, none, 0, []⟩
  | .ok urls =>
    if urls.isEmpty then ⟨.empty_list_error, fs0, none, 0, []⟩
    else
      let st := crawl_loop results MAX_PAGES urls 0 ⟨0, [], fs0⟩
      let content := write_index_text st.index_lines
      if st.saved < MAX_PAGES then
        ⟨.insufficient st.saved, st.fs, some content, st.saved, st.index_lines⟩
      else
        ⟨.done st.saved, st.fs, some content, st.saved, st.index_lines⟩

/-! ### Specification-side definitions (worded from the spec, for comparison) -/

/-- The string carried by a `urls` entry, if it is a string. -/
def entry_url : JsonEntry → Option String
  | .str s => some s
  | .other => none

/-- The spec's cleaning pass, before deduplication: keep the string
entries, trim them, drop the ones that are empty after trimming or
rejected by the resource filter. -/
def cleaned_urls (urls : List JsonEntry) : List String :=
  ((urls.filterMap entry_url).map str_trim).filter
    (fun u => u != "" && !is_bad_resource_url u)

/-- Deduplication keeping the first occurrence of each element, given an
initial set of already-seen elements. -/
def dedup_first (seen : List String) : List String → List String
  | [] => []
  | u :: rest =>
    if u ∈ seen then dedup_first seen rest
    else u :: dedup_first (u :: seen) rest

/-! ### Lemmas on normalization and filtering -/

theorem strip_after_strip_after (cs : List Char) :
    strip_after '#' (strip_after '?' cs)
      = cs.takeWhile (fun c => c != '?' && c != '#') := by
  induction cs with
  | nil => rfl
  | cons c rest ih =>
    by_cases hq : c = '?'
    · subst hq
      simp [strip_after, List.takeWhile_cons]
    · by_cases hh : c = '#'
      · subst hh
        simp [strip_after, List.takeWhile_cons]
      · simpa [strip_after, List.takeWhile_cons, hq, hh] using ih

theorem normalize_go_eq (urls : List JsonEntry) :
    ∀ seen, normalize_go seen urls = dedup_first seen (cleaned_urls urls) := by
  induction urls with
  | nil => intro seen; rfl
  | cons e rest ih =>
    intro seen
    cases e with
    | other =>
      simpa [normalize_go, cleaned_urls, entry_url] using ih seen
    | str s =>
      by_cases he : str_trim s = ""
      · simpa [normalize_go, cleaned_urls, entry_url, he] using ih seen
      · by_cases hb : is_bad_resource_url (str_trim s)
        · simpa [normalize_go, cleaned_urls, entry_url, he, hb] using ih seen
        · by_cases hm : str_trim s ∈ seen
          · simp [normalize_go, cleaned_urls, entry_url, he, hb, hm, dedup_first]
            simpa [cleaned_urls] using ih seen
          · simp [normalize_go, cleaned_urls, entry_url, he, hb, hm, dedup_first]
            simpa [cleaned_urls] using ih (str_trim s :: seen)

theorem mem_dedup_first (l : List String) :
    ∀ seen x, x ∈ dedup_first seen l ↔ x ∈ l ∧ x ∉ seen := by
  induction l with
  | nil => intro seen x; simp [dedup_first]
  | cons u rest ih =>
    intro seen x
    by_cases hm : u ∈ seen
    · rw [dedup_first, if_pos hm, ih]
      constructor
      · rintro ⟨h1, h2⟩; exact ⟨List.mem_cons_of_mem _ h1, h2⟩
      · rintro ⟨h1, h2⟩
        rcases List.mem_cons.1 h1 with h | h
        · exact absurd (h ▸ hm) h2
        · exact ⟨h, h2⟩
    · rw [dedup_first, if_neg hm]
      by_cases hx : x = u
      · subst hx; simp [hm]
      · simp only [List.mem_cons, hx, false_or]
        rw [ih]
        simp [List.mem_cons, hx]

theorem nodup_dedup_first (l : List String) :
    ∀ seen, (dedup_first seen l).Nodup := by
  induction l with
  | nil => intro seen; simp [dedup_first]
  | cons u rest ih =>
    intro seen
    by_cases hm : u ∈ seen
    · rw [dedup_first, if_pos hm]; exact ih seen
    · rw [dedup_first, if_neg hm]
      refine List.nodup_cons.2 ⟨?_, ih (u :: seen)⟩
      intro hc
      exact ((mem_dedup_first rest (u :: seen) u).1 hc).2 (List.mem_cons_self u seen)

theorem dedup_first_sublist (l : List String) :
    ∀ seen, (dedup_first seen l).Sublist l := by
  induction l with
  | nil => intro seen; simp [dedup_first]
  | cons u rest ih =>
    intro seen
    by_cases hm : u ∈ seen
    · rw [dedup_first, if_pos hm]
      exact (ih seen).trans (List.sublist_cons_self u rest)
    · rw [dedup_first, if_neg hm]
      exact (ih (u :: seen)).cons₂ u

/-- C5: `normalize_urls` drops non-string entries, trims each entry, drops
entries empty after trimming, excludes entries rejected by the resource
filter, produces no duplicates, and keeps the first occurrence of each
remaining entry in order. -/
theorem normalize_urls_characterization (urls : List JsonEntry) :
    normalize_urls urls = dedup_first [] (cleaned_urls urls)
    ∧ (normalize_urls urls).Nodup
    ∧ (normalize_urls urls).Sublist (cleaned_urls urls)
    ∧ ∀ s, s ∈ normalize_urls urls ↔ s ∈ cleaned_urls urls := by
  have heq : normalize_urls urls = dedup_first [] (cleaned_urls urls) :=
    normalize_go_eq urls []
  refine ⟨heq, ?_, ?_, ?_⟩
  · rw [heq]; exact nodup_dedup_first _ []
  · rw [heq]; exact dedup_first_sublist _ []
  · intro s
    rw [heq, mem_dedup_first]
    simp

/-- C6: the resource filter rejects a URL exactly when, after lower-casing
and dropping the query string and fragment, it ends with one of the fixed
rejected extensions. -/
theorem is_bad_resource_url_iff (url : String) :
    is_bad_resource_url url = true ↔
      ∃ ext ∈ DISALLOWED_EXTENSIONS,
        ext.data <:+ ((str_lower url).data.takeWhile (fun c => c != '?' && c != '#')) := by
  rw [is_bad_resource_url]
  rw [List.any_eq_true]
  simp only [strip_after_strip_after, List.isSuffixOf_iff_suffix]

/-- C7: loading fails exactly when the input is unparseable or the `urls`
field is present but not a list; a missing `urls` field yields the empty
list. -/
theorem load_urls_failure_iff (doc : UrlsDoc) :
    ((load_urls doc).isOk = false ↔ doc = .malformed ∨ doc = .obj (some .not_list))
    ∧ load_urls (.obj none) = .ok [] := by
  constructor
  · cases doc with
    | malformed => simp [load_urls, Except.isOk, Except.toBool]
    | obj o =>
      cases o with
      | none => simp [load_urls, Except.isOk, Except.toBool]
      | some f =>
        cases f with
        | list entries => simp [load_urls, Except.isOk, Except.toBool]
        | not_list => simp [load_urls, Except.isOk, Except.toBool]
  · rfl

/-! ### Lemmas on fetching -/

theorem contains_chars_iff_infix (needle : List Char) :
    ∀ hay, contains_chars needle hay = true ↔ needle <:+: hay := by
  intro hay
  induction hay with
  | nil =>
    simp [contains_chars, List.isEmpty_iff, List.infix_nil]
  | cons c rest ih =>
    rw [contains_chars, Bool.or_eq_true, List.infix_cons_iff, ih,
      List.isPrefixOf_iff_prefix]

theorem contains_str_iff (hay needle : String) :
    contains_str hay needle = true ↔ needle.data <:+: hay.data :=
  contains_chars_iff_infix needle.data hay.data

theorem fetch_go_all_exn (net : Nat → AttemptOutcome) (h : ∀ i, net i = .exn) :
    ∀ remaining attempt,
      fetch_go net attempt remaining
        = ⟨none, remaining, (List.range' attempt remaining).map (fun a : Nat => (a : ℚ) / 2)⟩ := by
  intro remaining
  induction remaining with
  | zero => intro attempt; simp [fetch_go]
  | succ r ih =>
    intro attempt
    rw [fetch_go, h attempt]
    simp only [ih (attempt + 1)]
    simp [List.range'_succ]

/-- C3: when every attempt raises a transport exception, the fetcher makes
exactly `retries` attempts (`RETRIES = 3` by default), sleeps
`0.5 * attempt` seconds after each failed attempt, and returns no result. -/
theorem fetch_html_all_attempts_fail (net : Nat → AttemptOutcome) (retries : Nat)
    (h : ∀ i, net i = .exn) :
    RETRIES = 3
    ∧ (fetch_html net retries).result = none
    ∧ (fetch_html net retries).attempts = retries
    ∧ (fetch_html net retries).sleeps
        = (List.range' 1 retries).map (fun a : Nat => (a : ℚ) / 2) := by
  rw [fetch_html, fetch_go_all_exn net h retries 1]
  exact ⟨rfl, rfl, rfl, rfl⟩

/-- C3 witness: with three attempts all timing out, the trace is three
attempts, no result, and backoffs of 0.5 s, 1 s, 1.5 s. -/
theorem fetch_html_all_attempts_fail_witness :
    (fetch_html (fun _ => .exn) RETRIES).result = none
    ∧ (fetch_html (fun _ => .exn) RETRIES).attempts = 3
    ∧ (fetch_html (fun _ => .exn) RETRIES).sleeps = [1/2, 1, 3/2] := by
  have h := fetch_html_all_attempts_fail (fun _ => .exn) RETRIES (fun _ => rfl)
  refine ⟨h.2.1, ?_, ?_⟩
  · rw [h.2.2.1]; rfl
  · rw [h.2.2.2]
    show List.map _ (List.range' 1 3) = _
    norm_num [List.range'_succ]

/-- C4: if the first attempt gets a response, a non-200 status yields no
result after that single attempt with no sleeps; a 200 response is accepted
with its body exactly when the declared content type (lower-cased) contains
`text/html` or `application/xhtml+xml`, and otherwise yields no result,
still after a single attempt. -/
theorem fetch_html_first_response (net : Nat → AttemptOutcome)
    (status : Nat) (content_type : Option String) (body : String) (retries : Nat)
    (hr : 0 < retries) (h : net 1 = .resp status content_type body) :
    (status ≠ 200 → fetch_html net retries = ⟨none, 1, []⟩)
    ∧ (status = 200 →
        ((fetch_html net retries).result = some body
            ↔ is_html_response content_type = true)
        ∧ (fetch_html net retries).attempts = 1
        ∧ (fetch_html net retries).sleeps = []
        ∧ (is_html_response content_type = false →
            (fetch_html net retries).result = none))
    ∧ (is_html_response content_type = true ↔
        ("text/html").data <:+: (str_lower (content_type.getD "")).data
        ∨ ("application/xhtml+xml").data <:+: (str_lower (content_type.getD "")).data) := by
  cases retries with
  | zero => exact absurd hr (by simp)
  | succ r =>
    refine ⟨?_, ?_, ?_⟩
    · intro hs
      simp only [fetch_html, fetch_go, h]
      rw [if_pos hs]
    · intro hs
      subst hs
      simp only [fetch_html, fetch_go, h]
      by_cases hh : is_html_response content_type
      · simp [hh]
      · simp [hh]
    · rw [is_html_response]
      rw [Bool.or_eq_true, contains_str_iff, contains_str_iff]

/-- C4 witness: a 200 HTML response on the first attempt is returned. -/
theorem fetch_html_first_response_witness :
    (fetch_html (fun _ => .resp 200 (some "text/HTML; charset=utf-8") "<p>") 3).result
      = some "<p>" :=
  ((fetch_html_first_response (fun _ => .resp 200 (some "text/HTML; charset=utf-8") "<p>")
      200 (some "text/HTML; charset=utf-8") "<p>" 3 (by decide) rfl).2.1 rfl).1.mpr
    (by decide)

/-! ### Lemmas on persistence -/

theorem mem_dirs_mkdir_p (fs : FS) (d : String) : d ∈ (mkdir_p fs d).dirs := by
  rw [mkdir_p]
  by_cases h : d ∈ fs.dirs
  · rwa [if_pos h]
  · rw [if_neg h]; exact List.mem_cons_self d fs.dirs

theorem save_page_eq (fs : FS) (d : String) (n : Nat) (h : String) :
    save_page fs d n h
      = .ok (⟨(mkdir_p fs d).dirs,
              ((⟨d, page_file_name n⟩ : FPath), h)
                :: fs.files.filter (fun e => e.1 != ⟨d, page_file_name n⟩),
              fs.log ++ [(⟨d, page_file_name n⟩, h)]⟩,
             ⟨d, page_file_name n⟩) := by
  rw [save_page, fs_write]
  rw [if_pos (mem_dirs_mkdir_p fs d)]
  rw [mkdir_p]
  by_cases hd : d ∈ fs.dirs
  · rw [if_pos hd]
  · rw [if_neg hd]

theorem save_page_run_eq (fs : FS) (d : String) (n : Nat) (h : String) :
    save_page_run fs d n h
      = (⟨(mkdir_p fs d).dirs,
          ((⟨d, page_file_name n⟩ : FPath), h)
            :: fs.files.filter (fun e => e.1 != ⟨d, page_file_name n⟩),
          fs.log ++ [(⟨d, page_file_name n⟩, h)]⟩,
         ⟨d, page_file_name n⟩) := by
  rw [save_page_run, save_page_eq]
  rfl

theorem filter_ne_idem {α β : Type} [DecidableEq α] (p : α) :
    ∀ l : List (α × β), (l.filter (fun e => e.1 != p)).filter (fun e => e.1 != p)
      = l.filter (fun e => e.1 != p) := by
  intro l
  induction l with
  | nil => rfl
  | cons e rest ih =>
    by_cases he : e.1 = p
    · simp [List.filter_cons, he, ih]
    · simp [List.filter_cons, he, ih]

/-- C8: `save_page` succeeds on any filesystem state (directory present or
absent, prior file present or absent), returns the path derived from the
sequence number, leaves that path holding the new body (overwriting any
prior file), and re-running it with the same number returns the same path
and leaves the same files and directories with the same content. -/
theorem save_page_idempotent (fs : FS) (output_dir : String) (number : Nat) (html : String) :
    save_page fs output_dir number html = .ok (save_page_run fs output_dir number html)
    ∧ (save_page_run fs output_dir number html).2
        = ⟨output_dir, page_file_name number⟩
    ∧ fs_lookup (save_page_run fs output_dir number html).1
        ⟨output_dir, page_file_name number⟩ = some html
    ∧ (save_page_run (save_page_run fs output_dir number html).1 output_dir number html).2
        = (save_page_run fs output_dir number html).2
    ∧ (save_page_run (save_page_run fs output_dir number html).1 output_dir number html).1.files
        = (save_page_run fs output_dir number html).1.files
    ∧ (save_page_run (save_page_run fs output_dir number html).1 output_dir number html).1.dirs
        = (save_page_run fs output_dir number html).1.dirs
    ∧ fs_lookup (save_page_run (save_page_run fs output_dir number html).1
          output_dir number html).1 ⟨output_dir, page_file_name number⟩ = some html := by
  have h1 := save_page_run_eq fs output_dir number html
  refine ⟨?_, ?_, ?_, ?_, ?_, ?_, ?_⟩
  · rw [save_page_eq, h1]
  · rw [h1]
  · rw [h1, fs_lookup]
    simp [List.find?]
  · rw [save_page_run_eq, h1]
  · rw [save_page_run_eq, h1]
    simp only [List.filter_cons]
    simp [filter_ne_idem]
  · rw [save_page_run_eq, h1]
    simp only [mkdir_p]
    rw [if_pos (by simpa using mem_dirs_mkdir_p fs output_dir)]
  · rw [save_page_run_eq]
    rw [fs_lookup]
    simp [List.find?]

/-! ### Specification-side view of the crawl loop -/

/-- The path of the page file with sequence number `n`. -/
def page_path (n : Nat) : FPath :=
  ⟨OUTPUT_DIR, page_file_name n⟩

/-- The saved pages of a run, as `(number, url, body)` triples, computed
directly from the URL list and the fetch results: the pure content of the
crawl loop. -/
def run_spec (results : Nat → Option String) (maxPages : Nat) :
    List String → Nat → Nat → List (Nat × String × String)
  | [], _, _ => []
  | url :: rest, i, saved =>
    if saved ≥ maxPages then []
    else
      match results i with
      | none => run_spec results maxPages rest (i + 1) saved
      | some html =>
        (saved + 1, url, html) :: run_spec results maxPages rest (i + 1) (saved + 1)

/-- Replaying the page saves of a run against a filesystem. -/
def apply_saves (fs : FS) : List (Nat × String × String) → FS
  | [] => fs
  | e :: rest => apply_saves (save_page_run fs OUTPUT_DIR e.1 e.2.2).1 rest

/-! ### Injectivity of the decimal file names -/

/-- The number denoted by a little-endian digit list. -/
def of_digits_rev : List Nat → Nat
  | [] => 0
  | d :: ds => d + 10 * of_digits_rev ds

theorem of_digits_to_digits : ∀ fuel n, n ≤ fuel →
    of_digits_rev (to_digits_rev fuel n) = n := by
  intro fuel
  induction fuel with
  | zero =>
    intro n hn
    interval_cases n
    rfl
  | succ f ih =>
    intro n hn
    by_cases h0 : n = 0
    · subst h0; simp [to_digits_rev, of_digits_rev]
    · rw [to_digits_rev]
      rw [if_neg h0, of_digits_rev]
      rw [ih (n / 10) ?_]
      · exact Nat.mod_add_div n 10
      · have : n / 10 < n := Nat.div_lt_self (Nat.pos_of_ne_zero h0) (by omega)
        omega

theorem to_digits_rev_lt : ∀ fuel n d, d ∈ to_digits_rev fuel n → d < 10 := by
  intro fuel
  induction fuel with
  | zero => intro n d hd; simp [to_digits_rev] at hd
  | succ f ih =>
    intro n d hd
    rw [to_digits_rev] at hd
    by_cases h0 : n = 0
    · rw [if_pos h0] at hd; simp at hd
    · rw [if_neg h0] at hd
      rcases List.mem_cons.1 hd with h | h
      · subst h; exact Nat.mod_lt n (by omega)
      · exact ih (n / 10) d h

theorem digit_char_inj_lt :
    ∀ d1 < 10, ∀ d2 < 10, digit_char d1 = digit_char d2 → d1 = d2 := by decide

theorem map_digit_char_inj :
    ∀ l1 l2 : List Nat, (∀ d ∈ l1, d < 10) → (∀ d ∈ l2, d < 10) →
      l1.map digit_char = l2.map digit_char → l1 = l2 := by
  intro l1
  induction l1 with
  | nil =>
    intro l2 _ _ h
    cases l2 with
    | nil => rfl
    | cons b bs => simp at h
  | cons a as ih =>
    intro l2 h1 h2 h
    cases l2 with
    | nil => simp at h
    | cons b bs =>
      simp only [List.map_cons, List.cons.injEq] at h
      have ha : a = b :=
        digit_char_inj_lt a (h1 a (List.mem_cons_self a as)) b
          (h2 b (List.mem_cons_self b bs)) h.1
      have hb : as = bs :=
        ih bs (fun d hd => h1 d (List.mem_cons_of_mem _ hd))
          (fun d hd => h2 d (List.mem_cons_of_mem _ hd)) h.2
      rw [ha, hb]

theorem nat_repr_inj_pos (n m : Nat) (hn : 0 < n) (hm : 0 < m)
    (h : nat_repr n = nat_repr m) : n = m := by
  rw [nat_repr, nat_repr, if_neg (Nat.pos_iff_ne_zero.1 hn),
    if_neg (Nat.pos_iff_ne_zero.1 hm)] at h
  have hl : ((to_digits_rev n n).reverse).map digit_char
      = ((to_digits_rev m m).reverse).map digit_char := by
    have := congrArg String.data h
    simpa using this
  have hrev : (to_digits_rev n n).reverse = (to_digits_rev m m).reverse :=
    map_digit_char_inj _ _
      (fun d hd => to_digits_rev_lt n n d (List.mem_reverse.1 hd))
      (fun d hd => to_digits_rev_lt m m d (List.mem_reverse.1 hd)) hl
  have hdig : to_digits_rev n n = to_digits_rev m m := List.reverse_inj.1 hrev
  have := congrArg of_digits_rev hdig
  rwa [of_digits_to_digits n n (Nat.le_refl n),
    of_digits_to_digits m m (Nat.le_refl m)] at this

theorem page_file_name_inj_pos (n m : Nat) (hn : 0 < n) (hm : 0 < m)
    (h : page_file_name n = page_file_name m) : n = m := by
  apply nat_repr_inj_pos n m hn hm
  apply String.ext
  have hd := congrArg String.data h
  rw [page_file_name, page_file_name, String.data_append, String.data_append] at hd
  exact (List.append_inj' hd rfl).1

/-! ### Counting records in the flushed index -/

/-- Splitting a character list at newline characters (so that a text of
`k` newline-terminated lines yields `k` pieces plus a final empty piece). -/
def split_newlines : List Char → List (List Char)
  | [] => [[]]
  | c :: cs =>
    if c = '\n' then [] :: split_newlines cs
    else
      match split_newlines cs with
      | r :: rs => (c :: r) :: rs
      | [] => [[c]]

/-- The number of nonempty lines of a text: the number of records a reader
of the index file would parse out of it. -/
def num_records (content : String) : Nat :=
  ((split_newlines content.data).filter (fun r => !r.isEmpty)).length

theorem split_newlines_ne_nil : ∀ cs, split_newlines cs ≠ [] := by
  intro cs
  cases cs with
  | nil => simp [split_newlines]
  | cons c rest =>
    rw [split_newlines]
    by_cases h : c = '\n'
    · rw [if_pos h]; simp
    · rw [if_neg h]
      rcases hr : split_newlines rest with _ | ⟨r, rs⟩
      · simp
      · simp

theorem split_newlines_append (a : List Char) (hna : '\n' ∉ a) (b : List Char) :
    split_newlines (a ++ '\n' :: b) = a :: split_newlines b := by
  induction a with
  | nil => simp [split_newlines]
  | cons c a' ih =>
    have hc : c ≠ '\n' := fun hc => hna (hc ▸ List.mem_cons_self c a')
    have ha' : '\n' ∉ a' := fun hm => hna (List.mem_cons_of_mem c hm)
    rw [List.cons_append, split_newlines, if_neg hc, ih ha']

theorem num_records_join (recs : List String)
    (h : ∀ r ∈ recs, r.data ≠ [] ∧ '\n' ∉ r.data) :
    num_records (join_str "\n" recs ++ "\n") = recs.length := by
  induction recs with
  | nil =>
    rw [num_records]
    rfl
  | cons x rest ih =>
    cases rest with
    | nil =>
      rw [num_records, join_str]
      have hx := h x (List.mem_cons_self x [])
      have : (x ++ "\n").data = x.data ++ '\n' :: [] := by
        rw [String.data_append]
      rw [this, split_newlines_append x.data hx.2]
      simp [List.filter_cons, List.isEmpty_iff, hx.1, split_newlines]
    | cons y r =>
      have hx := h x (List.mem_cons_self x (y :: r))
      have hrest : ∀ s ∈ y :: r, s.data ≠ [] ∧ '\n' ∉ s.data :=
        fun s hs => h s (List.mem_cons_of_mem x hs)
      rw [join_str]
      have hdata : ((x ++ "\n" ++ join_str "\n" (y :: r)) ++ "\n").data
          = x.data ++ '\n' :: (join_str "\n" (y :: r) ++ "\n").data := by
        simp [List.append_assoc]
      rw [num_records, hdata, split_newlines_append x.data hx.2]
      rw [List.filter_cons]
      have : (!x.data.isEmpty) = true := by
        simp [List.isEmpty_iff, hx.1]
      rw [if_pos this]
      have := ih hrest
      rw [num_records] at this
      simp only [List.length_cons, this]

/-! ### The crawl loop, characterized by `run_spec` -/

theorem crawl_loop_eq (results : Nat → Option String) (maxPages : Nat) :
    ∀ (urls : List String) (i : Nat) (st : LoopState),
      crawl_loop results maxPages urls i st
        = ⟨st.saved + (run_spec results maxPages urls i st.saved).length,
           st.index_lines
             ++ (run_spec results maxPages urls i st.saved).map (fun e => (e.1, e.2.1)),
           apply_saves st.fs (run_spec results maxPages urls i st.saved)⟩ := by
  intro urls
  induction urls with
  | nil =>
    intro i st
    rw [crawl_loop, run_spec]
    simp [apply_saves]
  | cons url rest ih =>
    intro i st
    rw [crawl_loop, run_spec]
    by_cases hge : st.saved ≥ maxPages
    · rw [if_pos hge, if_pos hge]
      simp [apply_saves]
    · rw [if_neg hge, if_neg hge]
      cases hres : results i with
      | none =>
        exact ih (i + 1) st
      | some html =>
        show crawl_loop results maxPages rest (i + 1)
            ⟨st.saved + 1, st.index_lines ++ [(st.saved + 1, url)],
             (save_page_run st.fs OUTPUT_DIR (st.saved + 1) html).1⟩
          = ⟨st.saved + ((st.saved + 1, url, html)
                :: run_spec results maxPages rest (i + 1) (st.saved + 1)).length,
             st.index_lines ++ ((st.saved + 1, url, html)
                :: run_spec results maxPages rest (i + 1) (st.saved + 1)).map
                  (fun e => (e.1, e.2.1)),
             apply_saves st.fs ((st.saved + 1, url, html)
                :: run_spec results maxPages rest (i + 1) (st.saved + 1))⟩
        rw [ih (i + 1) ⟨st.saved + 1, st.index_lines ++ [(st.saved + 1, url)],
          (save_page_run st.fs OUTPUT_DIR (st.saved + 1) html).1⟩]
        simp only [List.length_cons, List.map_cons, apply_saves, LoopState.mk.injEq]
        refine ⟨by omega, by simp [List.append_assoc], trivial⟩

theorem run_spec_numbers (results : Nat → Option String) (maxPages : Nat) :
    ∀ (urls : List String) (i saved : Nat),
      (run_spec results maxPages urls i saved).map (fun e => e.1)
        = List.range' (saved + 1) (run_spec results maxPages urls i saved).length := by
  intro urls
  induction urls with
  | nil => intro i saved; rw [run_spec]; rfl
  | cons url rest ih =>
    intro i saved
    rw [run_spec]
    by_cases hge : saved ≥ maxPages
    · rw [if_pos hge]; rfl
    · rw [if_neg hge]
      cases hres : results i with
      | none => exact ih (i + 1) saved
      | some html =>
        simp only [List.map_cons, List.length_cons, ih (i + 1) (saved + 1),
          List.range'_succ]

theorem run_spec_le (results : Nat → Option String) (maxPages : Nat) :
    ∀ (urls : List String) (i saved : Nat), saved ≤ maxPages →
      saved + (run_spec results maxPages urls i saved).length ≤ maxPages := by
  intro urls
  induction urls with
  | nil => intro i saved hle; rw [run_spec]; simpa using hle
  | cons url rest ih =>
    intro i saved hle
    rw [run_spec]
    by_cases hge : saved ≥ maxPages
    · rw [if_pos hge]; simpa using hle
    · rw [if_neg hge]
      cases hres : results i with
      | none => exact ih (i + 1) saved hle
      | some html =>
        have := ih (i + 1) (saved + 1) (by omega)
        simpa [Nat.add_comm, Nat.add_assoc, Nat.add_left_comm] using this

theorem run_spec_mem (results : Nat → Option String) (maxPages : Nat) :
    ∀ (urls : List String) (i saved : Nat) (e : Nat × String × String),
      e ∈ run_spec results maxPages urls i saved →
      ∃ j, urls[j]? = some e.2.1 ∧ results (i + j) = some e.2.2 := by
  intro urls
  induction urls with
  | nil => intro i saved e he; rw [run_spec] at he; simp at he
  | cons url rest ih =>
    intro i saved e he
    rw [run_spec] at he
    by_cases hge : saved ≥ maxPages
    · rw [if_pos hge] at he; simp at he
    · rw [if_neg hge] at he
      cases hres : results i with
      | none =>
        rw [hres] at he
        obtain ⟨j, hj1, hj2⟩ := ih (i + 1) saved e he
        exact ⟨j + 1, by simpa using hj1, by rw [show i + (j + 1) = i + 1 + j by omega]; exact hj2⟩
      | some html =>
        rw [hres] at he
        rcases List.mem_cons.1 he with h | h
        · subst h
          exact ⟨0, by simp, by simpa using hres⟩
        · obtain ⟨j, hj1, hj2⟩ := ih (i + 1) (saved + 1) e h
          exact ⟨j + 1, by simpa using hj1,
            by rw [show i + (j + 1) = i + 1 + j by omega]; exact hj2⟩

/-! ### Replaying the saves: log and lookups -/

theorem apply_saves_log :
    ∀ (entries : List (Nat × String × String)) (fs : FS),
      (apply_saves fs entries).log
        = fs.log ++ entries.map (fun e => (page_path e.1, e.2.2)) := by
  intro entries
  induction entries with
  | nil => intro fs; simp [apply_saves]
  | cons e rest ih =>
    intro fs
    rw [apply_saves, ih, save_page_run_eq]
    simp [page_path]

theorem find_key_filter_ne (p q : FPath) (hpq : p ≠ q) :
    ∀ l : List (FPath × String),
      (l.filter (fun e => e.1 != q)).find? (fun e => e.1 == p)
        = l.find? (fun e => e.1 == p) := by
  intro l
  induction l with
  | nil => rfl
  | cons e rest ih =>
    by_cases he : e.1 = q
    · have h1 : (e.1 != q) = false := by simp [he]
      have h2 : (e.1 == p) = false := by
        rw [beq_eq_false_iff_ne, he]
        exact fun hqp => hpq hqp.symm
      rw [List.filter_cons, h1]
      simp only [Bool.false_eq_true, if_false]
      rw [ih, List.find?_cons, h2]
    · have h1 : (e.1 != q) = true := by simp [he]
      rw [List.filter_cons, h1]
      simp only [if_true]
      rw [List.find?_cons, List.find?_cons]
      cases hep : (e.1 == p) with
      | true => rfl
      | false => exact ih

theorem fs_lookup_save_page_run_ne (fs : FS) (n : Nat) (html : String) (p : FPath)
    (hp : p ≠ page_path n) :
    fs_lookup (save_page_run fs OUTPUT_DIR n html).1 p = fs_lookup fs p := by
  rw [save_page_run_eq, fs_lookup, fs_lookup]
  have h2 : (((⟨OUTPUT_DIR, page_file_name n⟩ : FPath)) == p) = false := by
    rw [beq_eq_false_iff_ne]
    rw [page_path] at hp
    exact fun hc => hp hc.symm
  rw [List.find?_cons, h2]
  rw [find_key_filter_ne p ⟨OUTPUT_DIR, page_file_name n⟩ (by rw [page_path] at hp; exact hp)]

theorem fs_lookup_save_page_run_self (fs : FS) (n : Nat) (html : String) :
    fs_lookup (save_page_run fs OUTPUT_DIR n html).1 (page_path n) = some html := by
  rw [save_page_run_eq, fs_lookup, page_path]
  simp [List.find?]

theorem apply_saves_lookup_notmem :
    ∀ (entries : List (Nat × String × String)) (fs : FS) (p : FPath),
      (∀ e ∈ entries, p ≠ page_path e.1) →
      fs_lookup (apply_saves fs entries) p = fs_lookup fs p := by
  intro entries
  induction entries with
  | nil => intro fs p _; rfl
  | cons e rest ih =>
    intro fs p hp
    rw [apply_saves, ih _ p (fun e' he' => hp e' (List.mem_cons_of_mem e he')),
      fs_lookup_save_page_run_ne fs e.1 e.2.2 p (hp e (List.mem_cons_self e rest))]

theorem apply_saves_lookup :
    ∀ (entries : List (Nat × String × String)) (fs : FS),
      (entries.map (fun e => page_file_name e.1)).Nodup →
      ∀ e ∈ entries, fs_lookup (apply_saves fs entries) (page_path e.1) = some e.2.2 := by
  intro entries
  induction entries with
  | nil => intro fs _ e he; simp at he
  | cons e0 rest ih =>
    intro fs hnd e he
    rw [List.map_cons, List.nodup_cons] at hnd
    rcases List.mem_cons.1 he with h | h
    · subst h
      rw [apply_saves]
      rw [apply_saves_lookup_notmem rest _ (page_path e.1) ?_,
        fs_lookup_save_page_run_self]
      intro e' he' hc
      apply hnd.1
      have : page_file_name e.1 = page_file_name e'.1 := by
        have := congrArg FPath.name hc
        simpa [page_path] using this
      rw [this]
      exact List.mem_map_of_mem _ he'
    · rw [apply_saves]
      exact ih _ hnd.2 e h

/-! ### Index record shape -/

theorem index_line_data (rec : Nat × String) :
    (index_line rec).data = (nat_repr rec.1).data ++ '\t' :: rec.2.data := by
  rw [index_line]
  simp [List.append_assoc]

theorem nat_repr_no_newline (n : Nat) : '\n' ∉ (nat_repr n).data := by
  rw [nat_repr]
  by_cases h0 : n = 0
  · rw [if_pos h0]; decide
  · rw [if_neg h0]
    intro hm
    rcases List.mem_map.1 hm with ⟨d, hd, hdc⟩
    have hd10 : d < 10 := to_digits_rev_lt n n d (List.mem_reverse.1 hd)
    have hne : ∀ d < 10, digit_char d ≠ '\n' := by decide
    exact hne d hd10 hdc

theorem index_line_ne_nil (rec : Nat × String) : (index_line rec).data ≠ [] := by
  rw [index_line_data]
  simp

theorem index_line_no_newline (rec : Nat × String) (h : '\n' ∉ rec.2.data) :
    '\n' ∉ (index_line rec).data := by
  rw [index_line_data]
  intro hm
  rcases List.mem_append.1 hm with h1 | h2
  · exact nat_repr_no_newline rec.1 h1
  · rcases List.mem_cons.1 h2 with h3 | h4
    · exact absurd h3 (by decide)
    · exact h h4

/-! ### The whole of `main`, characterized by `run_spec` -/

theorem main_run_eq (doc : UrlsDoc) (results : Nat → Option String) (fs0 : FS)
    (urls : List String) (hload : load_urls doc = .ok urls) (hne : urls ≠ []) :
    main doc results fs0
      = ⟨if (run_spec results MAX_PAGES urls 0 0).length < MAX_PAGES
           then .insufficient (run_spec results MAX_PAGES urls 0 0).length
           else .done (run_spec results MAX_PAGES urls 0 0).length,
         apply_saves fs0 (run_spec results MAX_PAGES urls 0 0),
         some (write_index_text
           ((run_spec results MAX_PAGES urls 0 0).map (fun e => (e.1, e.2.1)))),
         (run_spec results MAX_PAGES urls 0 0).length,
         (run_spec results MAX_PAGES urls 0 0).map (fun e => (e.1, e.2.1))⟩ := by
  have hemp : urls.isEmpty = false := by
    cases urls with
    | nil => exact absurd rfl hne
    | cons a l => rfl
  rw [main, hload]
  show (if urls.isEmpty then (⟨.empty_list_error, fs0, none, 0, []⟩ : RunOutcome)
        else
          let st := crawl_loop results MAX_PAGES urls 0 ⟨0, [], fs0⟩
          let content := write_index_text st.index_lines
          if st.saved < MAX_PAGES then
            ⟨.insufficient st.saved, st.fs, some content, st.saved, st.index_lines⟩
          else
            ⟨.done st.saved, st.fs, some content, st.saved, st.index_lines⟩) = _
  rw [hemp]
  simp only [Bool.false_eq_true, if_false]
  rw [crawl_loop_eq results MAX_PAGES urls 0 ⟨0, [], fs0⟩]
  simp only [Nat.zero_add, List.nil_append]
  by_cases hlt : (run_spec results MAX_PAGES urls 0 0).length < MAX_PAGES
  · rw [if_pos hlt, if_pos hlt]
  · rw [if_neg hlt, if_neg hlt]

/-! ### Claim theorems about the orchestrator -/

/-- C1: in every run that reaches the crawl loop, the saved count equals the
number of index records and the number of page files written; the sequence
numbers are exactly `1..saved` in order; the flushed index parses back to
exactly `saved` records; and the file named by each record's number holds
the body fetched for that record's URL (so no skipped URL is indexed). -/
theorem main_run_dense_index (doc : UrlsDoc) (results : Nat → Option String) (fs0 : FS)
    (urls : List String) (hload : load_urls doc = .ok urls) (hne : urls ≠ [])
    (hnl : ∀ u ∈ urls, '\n' ∉ u.data) :
    (main doc results fs0).saved = (main doc results fs0).index_lines.length
    ∧ (main doc results fs0).index_lines.map (fun rec => rec.1)
        = List.range' 1 (main doc results fs0).saved
    ∧ num_records ((main doc results fs0).index_content.getD "")
        = (main doc results fs0).saved
    ∧ (main doc results fs0).fs.log.length
        = fs0.log.length + (main doc results fs0).saved
    ∧ ∀ rec ∈ (main doc results fs0).index_lines,
        ∃ j html, urls[j]? = some rec.2 ∧ results j = some html
          ∧ fs_lookup (main doc results fs0).fs ⟨OUTPUT_DIR, page_file_name rec.1⟩
              = some html := by
  rw [main_run_eq doc results fs0 urls hload hne]
  simp only
  have hnum := run_spec_numbers results MAX_PAGES urls 0 0
  rw [Nat.zero_add] at hnum
  have hmem_urls : ∀ e ∈ run_spec results MAX_PAGES urls 0 0, e.2.1 ∈ urls := by
    intro e he
    obtain ⟨j, hj1, _⟩ := run_spec_mem results MAX_PAGES urls 0 0 e he
    exact List.getElem?_mem hj1
  have hpos : ∀ x ∈ (run_spec results MAX_PAGES urls 0 0).map (fun e => e.1), 0 < x := by
    intro x hx
    rw [hnum] at hx
    obtain ⟨i, _, hxi⟩ := List.mem_range'.1 hx
    omega
  have hnd : ((run_spec results MAX_PAGES urls 0 0).map
      (fun e => page_file_name e.1)).Nodup := by
    have h1 : (run_spec results MAX_PAGES urls 0 0).map (fun e => page_file_name e.1)
        = ((run_spec results MAX_PAGES urls 0 0).map (fun e => e.1)).map page_file_name := by
      rw [List.map_map]
      rfl
    rw [h1]
    refine List.Nodup.map_on ?_ ?_
    · intro x hx y hy hxy
      exact page_file_name_inj_pos x y (hpos x hx) (hpos y hy) hxy
    · rw [hnum]
      exact List.nodup_range' 1 _
  refine ⟨by simp, ?_, ?_, ?_, ?_⟩
  · rw [List.map_map]
    exact hnum
  · rw [Option.getD_some, write_index_text]
    have hlen : ((run_spec results MAX_PAGES urls 0 0).map (fun e => (e.1, e.2.1))).length
        = (run_spec results MAX_PAGES urls 0 0).length := by simp
    rw [← hlen]
    rw [show ((run_spec results MAX_PAGES urls 0 0).map (fun e => (e.1, e.2.1))).length
        = (((run_spec results MAX_PAGES urls 0 0).map
            (fun e => (e.1, e.2.1))).map index_line).length by simp]
    apply num_records_join
    intro r hr
    obtain ⟨rec, hrec, rfl⟩ := List.mem_map.1 hr
    obtain ⟨e, he, rfl⟩ := List.mem_map.1 hrec
    exact ⟨index_line_ne_nil _, index_line_no_newline _ (hnl e.2.1 (hmem_urls e he))⟩
  · rw [apply_saves_log]
    simp
  · intro rec hrec
    obtain ⟨e, he, rfl⟩ := List.mem_map.1 hrec
    obtain ⟨j, hj1, hj2⟩ := run_spec_mem results MAX_PAGES urls 0 0 e he
    rw [Nat.zero_add] at hj2
    refine ⟨j, e.2.2, hj1, hj2, ?_⟩
    have := apply_saves_lookup (run_spec results MAX_PAGES urls 0 0) fs0 hnd e he
    rw [page_path] at this
    exact this

/-- C1 witness: a one-URL run whose fetch succeeds. -/
theorem main_run_dense_index_witness :
    load_urls (UrlsDoc.obj (some (.list [.str "https://a.test/page"]))) = .ok ["https://a.test/page"]
    ∧ (["https://a.test/page"] : List String) ≠ []
    ∧ (∀ u ∈ (["https://a.test/page"] : List String), '\n' ∉ u.data)
    ∧ (main (UrlsDoc.obj (some (.list [.str "https://a.test/page"])))
        (fun _ => some "<html>") ⟨[], [], []⟩).saved
      = (main (UrlsDoc.obj (some (.list [.str "https://a.test/page"])))
          (fun _ => some "<html>") ⟨[], [], []⟩).index_lines.length :=
  ⟨rfl, by decide, by decide,
    (main_run_dense_index (UrlsDoc.obj (some (.list [.str "https://a.test/page"])))
      (fun _ => some "<html>") ⟨[], [], []⟩ ["https://a.test/page"] rfl
      (by decide) (by decide)).1⟩

/-- C2: with a loadable URL list, the run exits non-zero exactly when the
list is empty or fewer than `MAX_PAGES` pages were saved; the empty list
aborts before any flush; otherwise the index is flushed with whatever was
collected before the final check, and the insufficient-yield failure
carries the number of pages actually saved. -/
theorem main_exit_behavior (doc : UrlsDoc) (results : Nat → Option String) (fs0 : FS)
    (urls : List String) (hload : load_urls doc = .ok urls) :
    ((main doc results fs0).exit.isFatal = true
        ↔ (urls = [] ∨ (main doc results fs0).saved < MAX_PAGES))
    ∧ (urls = [] →
        (main doc results fs0).exit = .empty_list_error
        ∧ (main doc results fs0).index_content = none
        ∧ (main doc results fs0).fs = fs0)
    ∧ (urls ≠ [] →
        (main doc results fs0).index_content
          = some (write_index_text (main doc results fs0).index_lines)
        ∧ ((main doc results fs0).saved < MAX_PAGES →
            (main doc results fs0).exit = .insufficient (main doc results fs0).saved)
        ∧ (MAX_PAGES ≤ (main doc results fs0).saved →
            (main doc results fs0).exit = .done (main doc results fs0).saved)) := by
  by_cases hne : urls = []
  · subst hne
    have hmain : main doc results fs0 = ⟨.empty_list_error, fs0, none, 0, []⟩ := by
      rw [main, hload]
      rfl
    rw [hmain]
    exact ⟨by simp [ExitStatus.isFatal, MAX_PAGES],
      fun _ => ⟨rfl, rfl, rfl⟩, fun hc => absurd rfl hc⟩
  · rw [main_run_eq doc results fs0 urls hload hne]
    simp only
    by_cases hlt : (run_spec results MAX_PAGES urls 0 0).length < MAX_PAGES
    · rw [if_pos hlt]
      exact ⟨by simp [ExitStatus.isFatal, hlt],
        fun hc => absurd hc hne,
        fun _ => ⟨trivial, fun _ => rfl, fun hge => absurd hlt (by omega)⟩⟩
    · rw [if_neg hlt]
      exact ⟨by simp [ExitStatus.isFatal, hne, hlt],
        fun hc => absurd hc hne,
        fun _ => ⟨trivial, fun hc => absurd hc hlt, fun _ => rfl⟩⟩

/-- C2 witness: a one-URL run with a failing fetch exits with the
insufficient-yield failure carrying the saved count. -/
theorem main_exit_behavior_witness :
    load_urls (UrlsDoc.obj (some (.list [.str "u1"]))) = .ok ["u1"]
    ∧ (main (UrlsDoc.obj (some (.list [.str "u1"]))) (fun _ => none) ⟨[], [], []⟩).exit
        = .insufficient (main (UrlsDoc.obj (some (.list [.str "u1"])))
            (fun _ => none) ⟨[], [], []⟩).saved :=
  ⟨rfl,
    ((main_exit_behavior (UrlsDoc.obj (some (.list [.str "u1"]))) (fun _ => none)
        ⟨[], [], []⟩ ["u1"] rfl).2.2 (by decide)).2.1 (by decide)⟩

/-- C9: the loop stops as soon as the saved count reaches the target, so a
run never saves more than `MAX_PAGES` pages, no index record carries a
number above `MAX_PAGES`, and every page file written during the run is
named by a number at most `MAX_PAGES`. -/
theorem main_saved_bounded (doc : UrlsDoc) (results : Nat → Option String) (fs0 : FS) :
    (∀ (maxPages : Nat) (urls : List String) (i : Nat) (st : LoopState),
        maxPages ≤ st.saved → crawl_loop results maxPages urls i st = st)
    ∧ (main doc results fs0).saved ≤ MAX_PAGES
    ∧ (∀ rec ∈ (main doc results fs0).index_lines, rec.1 ≤ MAX_PAGES)
    ∧ (∀ w ∈ (main doc results fs0).fs.log.drop fs0.log.length,
        ∃ n, n ≤ MAX_PAGES ∧ w.1 = ⟨OUTPUT_DIR, page_file_name n⟩) := by
  have hstop : ∀ (maxPages : Nat) (urls : List String) (i : Nat) (st : LoopState),
      maxPages ≤ st.saved → crawl_loop results maxPages urls i st = st := by
    intro maxPages urls i st h
    cases urls with
    | nil => rfl
    | cons u rest =>
      rw [crawl_loop, if_pos h]
  refine ⟨hstop, ?_⟩
  cases hl : load_urls doc with
  | error e =>
    have hmain : main doc results fs0 = ⟨.config_error, fs0, none, 0, []⟩ := by
      rw [main, hl]
    rw [hmain]
    refine ⟨Nat.zero_le _, by simp, ?_⟩
    simp [List.drop_length]
  | ok urls =>
    by_cases hne : urls = []
    · subst hne
      have hmain : main doc results fs0 = ⟨.empty_list_error, fs0, none, 0, []⟩ := by
        rw [main, hl]
        rfl
      rw [hmain]
      refine ⟨Nat.zero_le _, by simp, ?_⟩
      simp [List.drop_length]
    · rw [main_run_eq doc results fs0 urls hl hne]
      simp only
      have hle := run_spec_le results MAX_PAGES urls 0 0 (Nat.zero_le _)
      rw [Nat.zero_add] at hle
      have hnum := run_spec_numbers results MAX_PAGES urls 0 0
      rw [Nat.zero_add] at hnum
      have hbound : ∀ e ∈ run_spec results MAX_PAGES urls 0 0, e.1 ≤ MAX_PAGES := by
        intro e he
        have hmem : e.1 ∈ (run_spec results MAX_PAGES urls 0 0).map (fun e => e.1) :=
          List.mem_map_of_mem _ he
        rw [hnum] at hmem
        obtain ⟨k, hk, hek⟩ := List.mem_range'.1 hmem
        omega
      refine ⟨hle, ?_, ?_⟩
      · intro rec hrec
        obtain ⟨e, he, rfl⟩ := List.mem_map.1 hrec
        exact hbound e he
      · intro w hw
        rw [apply_saves_log, List.drop_left] at hw
        obtain ⟨e, he, rfl⟩ := List.mem_map.1 hw
        exact ⟨e.1, hbound e he, rfl⟩

/-- C9 witness: with a target of zero the loop performs no iteration. -/
theorem main_saved_bounded_witness :
    crawl_loop (fun _ => none) 0 ["u"] 0 ⟨0, [], ⟨[], [], []⟩⟩ = ⟨0, [], ⟨[], [], []⟩⟩ :=
  (main_saved_bounded UrlsDoc.malformed (fun _ => none) ⟨[], [], []⟩).1
    0 ["u"] 0 ⟨0, [], ⟨[], [], []⟩⟩ (Nat.le_refl 0)

/-- C10: flushing an empty index writes a file consisting of exactly one
newline character, and in general the serialized index is each record
followed by one newline, concatenated in order; a run saving zero pages
still flushes the index file, with content `"\n"`. -/
theorem write_index_empty_line :
    write_index_text [] = "\n"
    ∧ (∀ lines : List (Nat × String),
        write_index_text lines
          = if lines = [] then "\n"
            else ((lines.map index_line).map (fun r => r ++ "\n")).foldr (· ++ ·) "")
    ∧ (main (UrlsDoc.obj (some (.list [.str "https://a.test/page"]))) (fun _ => none)
        ⟨[], [], []⟩).index_content = some "\n" := by
  refine ⟨rfl, ?_, by decide⟩
  intro lines
  induction lines with
  | nil => rfl
  | cons x rest ih =>
    cases rest with
    | nil =>
      simp [write_index_text, join_str]
    | cons y r =>
      have hne : (y :: r) ≠ [] := by simp
      show (index_line x ++ "\n" ++ join_str "\n" (index_line y :: List.map index_line r))
          ++ "\n" = _
      rw [String.append_assoc]
      have hsub : join_str "\n" (index_line y :: List.map index_line r) ++ "\n"
          = write_index_text (y :: r) := rfl
      rw [hsub, ih, if_neg hne, if_neg (by simp)]
      simp [List.foldr_cons]

end WebCrawler
